import Mathlib

/-!
Shallow embedding of the Gemini KYC data-extractor tool (`src/main.py`):
the record schema (`KYCFormData` / `EXCEL_COLUMNS`), the multi-model
extraction orchestrator (`enhanced_gemini_extraction`), the pandas/Excel
tabular store (`save_to_excel`, `download_excel_file`), and the edit
surface's rebuilt working record (`edited_data_temp`), together with
theorems checking the specification's claims against these definitions.

Conventions of the embedding:
  * machine floats are modelled as rationals (the claims are purely
    order-theoretic comparisons of confidence values);
  * a pandas cell is an `Option CellVal`, `none` standing for
    Python `None` / pandas `NaN`;
  * a Python dict is a key-ordered association list (`RecordDict`);
  * a backend invocation's observable behaviour is an `Outcome`: either an
    exception (network error, quota, malformed JSON — all caught by the
    same `except` clause) or a successfully parsed JSON response.
-/

/-- A tabular cell value: a string or a number. -/
inductive CellVal where
  | str (s : String)
  | num (q : ℚ)
deriving DecidableEq

/-- A Python dict of record fields in key-insertion order: each entry is a
key together with its (possibly `None`) value. -/
abbrev RecordDict := List (String × Option CellVal)

/-- `dict.get(k)`: value of the first entry with key `k`; `none` when the key
is absent or its value is `None`. -/
def dictLookup : RecordDict → String → Option CellVal
  | [], _ => none
  | (k, v) :: rest, c => if c = k then v else dictLookup rest c

/-- `k in dict`: key presence, regardless of the value being `None`. -/
def dictHasKey (d : RecordDict) (k : String) : Bool :=
  (d.map Prod.fst).contains k

/-- A backend's parsed JSON response.  `confidence_score` distinguishes the
key being absent (`none`), present but JSON null (`some none`), and a
numeric score (`some (some c)`); the remaining extracted fields are carried
opaquely. -/
structure GeminiResponse where
  confidence_score : Option (Option ℚ)
  fields : List (String × Option String)
deriving DecidableEq

/-- Outcome of invoking one backend model: an exception somewhere in the
`try` block (network, quota, malformed JSON, non-numeric confidence), or a
successfully parsed JSON response. -/
inductive Outcome where
  | failure (msg : String)
  | success (resp : GeminiResponse)
deriving DecidableEq

/-- The orchestrator's best result: the winning response dict with
`model_used` stamped into it (`best_result['model_used'] = model_name`). -/
structure BestResult where
  resp : GeminiResponse
  model_used : String
deriving DecidableEq

/-- The loop state of `enhanced_gemini_extraction`: `best_result`,
`highest_confidence`, the accumulated `errors` list, plus (for the
temporal claims) the trace of backends invoked so far with their
outcomes. -/
structure OrchState where
  best_result : Option BestResult
  highest_confidence : ℚ
  errors : List String
  invoked : List (String × Outcome)
deriving DecidableEq

/-- Initial loop state: `best_result = None`, `highest_confidence = -1.0`,
no errors, nothing invoked. -/
def initState : OrchState :=
  { best_result := none, highest_confidence := -1, errors := [], invoked := [] }

/-- `result_data.get('confidence_score', 0.0) or 0.0`: an absent key, a JSON
null, and a (falsy) zero all yield `0.0`; any other numeric value is kept
as-is. -/
def defaultConf : Option (Option ℚ) → ℚ
  | none => 0
  | some none => 0
  | some (some c) => c

/-- The error message recorded for a failed backend:
`f"Model \`{model_name}\` failed: {e}"`. -/
def failureMsg (name msg : String) : String :=
  "Model `" ++ name ++ "` failed: " ++ msg

/-- One iteration of the `for model_name in models_to_try` loop body.
On an exception: append the error message and continue.  On success:
compute the defaulted confidence, replace the best result when the
confidence strictly exceeds `highest_confidence`, and report whether the
early-exit `break` fires (`confidence > 0.98`).  The second component of
the result is that `break` flag. -/
def processModel (st : OrchState) (name : String) (out : Outcome) : OrchState × Bool :=
  match out with
  | .failure msg =>
      ({ st with errors := st.errors ++ [failureMsg name msg],
                 invoked := st.invoked ++ [(name, out)] }, false)
  | .success resp =>
      let confidence := defaultConf resp.confidence_score
      let st1 := { st with invoked := st.invoked ++ [(name, out)] }
      let st2 :=
        if st1.highest_confidence < confidence then
          { st1 with highest_confidence := confidence,
                     best_result := some { resp := resp, model_used := name } }
        else st1
      (st2, decide (mkRat 98 100 < confidence))

/-- The orchestrator loop over the candidate list, given the outcome each
backend produces when invoked; stops when the early-exit flag fires. -/
def runModels : OrchState → List (String × Outcome) → OrchState
  | st, [] => st
  | st, (name, out) :: rest =>
      let pr := processModel st name out
      if pr.2 then pr.1 else runModels pr.1 rest

/-- `enhanced_gemini_extraction`: run the loop from the initial state and
return `best_result` — and only `best_result`. -/
def enhanced_gemini_extraction (models : List (String × Outcome)) : Option BestResult :=
  (runModels initState models).best_result

/-- The final `if not best_result and errors:` user-visible error banner. -/
def allModelsFailedBanner (st : OrchState) : Bool :=
  st.best_result.isNone && !st.errors.isEmpty

/-- The successful invocations of a trace, as (backend, defaulted
confidence) pairs in invocation order. -/
def successConfs (l : List (String × Outcome)) : List (String × ℚ) :=
  l.filterMap (fun p =>
    match p.2 with
    | .success resp => some (p.1, defaultConf resp.confidence_score)
    | .failure _ => none)

/-- The successful invocations of a full orchestrator run. -/
def invokedSuccs (models : List (String × Outcome)) : List (String × ℚ) :=
  successConfs ((runModels initState models).invoked)

/-- Spec-side predicate for claim C1: `name` labels the first-seen maximum
of the confidence list — some entry carries `name`, every entry's
confidence is at most that entry's, and every strictly earlier entry's
confidence is strictly below it. -/
def firstSeenMax (l : List (String × ℚ)) (name : String) : Prop :=
  ∃ pre x post, l = pre ++ x :: post ∧ x.1 = name ∧
    (∀ y ∈ l, y.2 ≤ x.2) ∧ ∀ y ∈ pre, y.2 < x.2

/-- Whether an outcome is a failure (raised an exception). -/
def isFailure : Outcome → Bool
  | .failure _ => true
  | .success _ => false

/-- The message of a failure outcome (dummy on successes). -/
def outcomeErr : Outcome → String
  | .failure m => m
  | .success _ => ""

/-- Whether an assigned outcome is a success whose defaulted confidence
strictly exceeds the early-exit threshold `0.98`. -/
def highSuccess (p : String × Outcome) : Bool :=
  match p.2 with
  | .success resp => decide (mkRat 98 100 < defaultConf resp.confidence_score)
  | .failure _ => false

/-- Whether an assigned outcome is a success whose defaulted confidence is
at least 0.0. -/
def nonnegSuccess (p : String × Outcome) : Bool :=
  match p.2 with
  | .success resp => decide (0 ≤ defaultConf resp.confidence_score)
  | .failure _ => false

/-- Loop invariant of the orchestrator run, relating the current best
result and highest confidence to the successes invoked so far: while no
best result exists, the highest confidence is still -1.0 and every invoked
success scored at most -1.0; once a best result exists, the highest
confidence is its defaulted confidence, it bounds every invoked success,
and the best result's backend sits at the first position attaining that
confidence. -/
def stateInv (st : OrchState) : Prop :=
  (st.best_result = none →
    st.highest_confidence = -1 ∧ ∀ y ∈ successConfs st.invoked, y.2 ≤ -1) ∧
  ∀ b : BestResult, st.best_result = some b →
    st.highest_confidence = defaultConf b.resp.confidence_score ∧
    (∀ y ∈ successConfs st.invoked, y.2 ≤ st.highest_confidence) ∧
    ∃ pre x post, successConfs st.invoked = pre ++ x :: post ∧
      x.1 = b.model_used ∧ x.2 = st.highest_confidence ∧
      ∀ y ∈ pre, y.2 < st.highest_confidence

/-- A pandas DataFrame: named columns and rows of cells. -/
structure DataFrame where
  columns : List String
  rows : List (List (Option CellVal))
deriving DecidableEq

/-- `EXCEL_COLUMNS = list(KYCFormData.model_fields.keys())`: the schema's
fixed field ordering. -/
def EXCEL_COLUMNS : List String :=
  ["document_title", "society_name", "control_number", "name",
   "father_husband_name", "designation", "bill_unit_number", "department",
   "sr_number", "office_address", "residential_address", "date_of_birth",
   "date_of_appointment", "mobile_number", "pan_number", "aadhar_number",
   "bank_name", "branch_name", "branch_code", "account_number", "ifsc_code",
   "nominee_name", "nominee_relation", "nominee_dob", "nominee_aadhar",
   "nominee_pan", "confidence_score", "model_used"]

/-- `df[name]` for one row: the cell under column `name`, `none` when the
column is absent. -/
def getCell : List String → List (Option CellVal) → String → Option CellVal
  | [], _, _ => none
  | _ :: _, [], _ => none
  | c :: cs, v :: vs, name => if name = c then v else getCell cs vs name

/-- `pd.DataFrame([data_dict])`: one row, columns in dict key order. -/
def dataFrameOfDict (d : RecordDict) : DataFrame :=
  ⟨d.map Prod.fst, [d.map Prod.snd]⟩

/-- `new_record[col] = None` when `col` is missing: append the column,
filled with `None`. -/
def addColumn (df : DataFrame) (c : String) : DataFrame :=
  if c ∈ df.columns then df
  else ⟨df.columns ++ [c], df.rows.map (fun r => r ++ [none])⟩

/-- `for col in cols: if col not in new_record.columns: new_record[col] = None`. -/
def addMissingColumns (df : DataFrame) : List String → DataFrame
  | [] => df
  | c :: cs => addMissingColumns (addColumn df c) cs

/-- `df[cols]`: select (and reorder) columns by name. -/
def selectColumns (df : DataFrame) (cols : List String) : DataFrame :=
  ⟨cols, df.rows.map (fun row => cols.map (getCell df.columns row))⟩

/-- Re-express one row of a frame under a target column list (pandas
column alignment: absent columns become `NaN`). -/
def alignRow (srcCols : List String) (row : List (Option CellVal))
    (cols : List String) : List (Option CellVal) :=
  cols.map (getCell srcCols row)

/-- `pd.concat([a, b], ignore_index=True)`: columns are `a`'s followed by
`b`'s new ones; every row is aligned to the combined columns. -/
def concatDF (a b : DataFrame) : DataFrame :=
  let cols := a.columns ++ b.columns.filter (fun c => !(a.columns.contains c))
  ⟨cols, a.rows.map (fun r => alignRow a.columns r cols) ++
         b.rows.map (fun r => alignRow b.columns r cols)⟩

/-- The pure data transformation of `save_to_excel`: build a one-row frame
from the dict, add the missing schema columns as `None`, select the schema
columns in order, and concatenate after the loaded store. -/
def save_to_excel (store : DataFrame) (d : RecordDict) : DataFrame :=
  let new_record := dataFrameOfDict d
  let new_record := addMissingColumns new_record EXCEL_COLUMNS
  let new_record := selectColumns new_record EXCEL_COLUMNS
  concatDF store new_record

/-- Effect-level model of `save_to_excel`'s `try/except`: `loadOk` says
whether reading the backing file raises, `writeOk` whether the final
`to_excel` write raises; any exception is caught and `False` is returned.
The write is a single pandas call and the file model treats a failed write
as leaving the previous contents in place.  Returns the flag the function
returns and the resulting persisted store. -/
def save_to_excel_run (store : DataFrame) (d : RecordDict)
    (loadOk writeOk : Bool) : Bool × DataFrame :=
  if loadOk then
    if writeOk then (true, save_to_excel store d) else (false, store)
  else (false, store)

/-- Header-cell encoding used when serializing a frame to a sheet. -/
def cellToHeader : Option CellVal → String
  | some (CellVal.str s) => s
  | some (CellVal.num _) => ""
  | none => ""

/-- Serialize a frame to a sheet-shaped blob: a header row of column names
followed by the data rows (the layout `to_excel(..., index=False)`
writes). -/
def serializeDF (df : DataFrame) : List (List (Option CellVal)) :=
  df.columns.map (fun c => some (CellVal.str c)) :: df.rows

/-- Re-load a serialized blob: first row is the header, the rest are data
rows (the layout `pd.read_excel` reads back). -/
def parseDF : List (List (Option CellVal)) → DataFrame
  | [] => ⟨[], []⟩
  | header :: rows => ⟨header.map cellToHeader, rows⟩

/-- `download_excel_file`: load the store and serialize it to the download
blob. -/
def download_excel_file (store : DataFrame) : List (List (Option CellVal)) :=
  serializeDF store

/-- The edit surface's field grouping (source lists `personal_info` …
`nominee_info`). -/
def personal_info : List String :=
  ["name", "father_husband_name", "date_of_birth", "mobile_number",
   "pan_number", "aadhar_number"]

def employment_info : List String :=
  ["control_number", "designation", "bill_unit_number", "department",
   "sr_number", "date_of_appointment"]

def address_info : List String :=
  ["office_address", "residential_address"]

def bank_info : List String :=
  ["bank_name", "branch_name", "branch_code", "account_number", "ifsc_code"]

def nominee_info : List String :=
  ["nominee_name", "nominee_relation", "nominee_dob", "nominee_aadhar",
   "nominee_pan"]

/-- All editable fields in the order the five form sections are rendered. -/
def editableFields : List String :=
  personal_info ++ employment_info ++ address_info ++ bank_info ++ nominee_info

/-- `edited_data_temp` as rebuilt by the edit surface: every editable field
present in the working record gets the current text-input value (in
section rendering order, which fixes the dict key-insertion order),
followed by the two passthrough metadata fields.  `widgetVal` gives the
current content of each text input. -/
def edited_data_temp (data_to_edit : RecordDict) (widgetVal : String → String) : RecordDict :=
  (editableFields.filter (fun f => dictHasKey data_to_edit f)).map
      (fun f => (f, some (CellVal.str (widgetVal f))))
    ++ [("document_title", dictLookup data_to_edit "document_title"),
        ("society_name", dictLookup data_to_edit "society_name")]

/-- A working record carrying every schema key with null values — the shape
a fully null extraction result has. -/
def fullNullDict : RecordDict := EXCEL_COLUMNS.map (fun c => (c, none))

/-- Concrete two-backend run used as witness input (the spec §8 example):
`fast`-style backend scores 0.6, `pro`-style backend scores 0.9. -/
def modelsEx : List (String × Outcome) :=
  [("gemini-1.5-pro-latest", Outcome.success ⟨some (some (mkRat 6 10)), []⟩),
   ("gemini-1.5-flash-latest", Outcome.success ⟨some (some (mkRat 9 10)), []⟩)]

/-- The best result the witness run produces. -/
def bestEx : BestResult :=
  ⟨⟨some (some (mkRat 9 10)), []⟩, "gemini-1.5-flash-latest"⟩

/-- A concrete loop state used as witness input for the tie-break claim. -/
def stEx : OrchState :=
  { best_result := some ⟨⟨some (some (mkRat 1 2)), []⟩, "gemini-1.5-pro-latest"⟩,
    highest_confidence := mkRat 1 2,
    errors := [],
    invoked := [("gemini-1.5-pro-latest", Outcome.success ⟨some (some (mkRat 1 2)), []⟩)] }

/-- A response tying the witness state's highest confidence. -/
def respEx : GeminiResponse := ⟨some (some (mkRat 1 2)), []⟩

/-- Concrete run whose first backend reports confidence 0.99 (above the
early-exit threshold). -/
def modelsHighEx : List (String × Outcome) :=
  [("gemini-1.5-pro-latest", Outcome.success ⟨some (some (mkRat 99 100)), []⟩),
   ("gemini-1.5-flash-latest", Outcome.success ⟨some (some (1 : ℚ)), []⟩)]

/-- Concrete run in which every backend raises. -/
def modelsFailEx : List (String × Outcome) :=
  [("gemini-1.5-pro-latest", Outcome.failure "429 quota exceeded"),
   ("gemini-1.5-flash-latest", Outcome.failure "JSONDecodeError")]

/-- Concrete run whose only backend succeeds but reports an explicit
negative `confidence_score` of -2.0. -/
def modelsNegEx : List (String × Outcome) :=
  [("gemini-1.5-pro-latest", Outcome.success ⟨some (some (-2)), []⟩)]

/-- Concrete run whose first backend fails and whose second succeeds with
confidence 0.7. -/
def modelsOkEx : List (String × Outcome) :=
  [("gemini-1.5-pro-latest", Outcome.failure "500 internal error"),
   ("gemini-1.5-flash-latest", Outcome.success ⟨some (some (mkRat 7 10)), []⟩)]

/-- A concrete incoming record: one schema field set, one extra key, one
schema field explicitly null, everything else missing. -/
def dEx : RecordDict :=
  [("name", some (CellVal.str "Asha")),
   ("unknown_extra_key", some (CellVal.str "x")),
   ("pan_number", none)]

/-! ## Helper lemmas about the orchestrator loop -/

theorem successConfs_append (a b : List (String × Outcome)) :
    successConfs (a ++ b) = successConfs a ++ successConfs b := by
  simp [successConfs, List.filterMap_append]

theorem processModel_failure (st : OrchState) (name msg : String) :
    processModel st name (Outcome.failure msg) =
      ({ st with errors := st.errors ++ [failureMsg name msg],
                 invoked := st.invoked ++ [(name, Outcome.failure msg)] }, false) := rfl

theorem processModel_invoked (st : OrchState) (name : String) (out : Outcome) :
    (processModel st name out).1.invoked = st.invoked ++ [(name, out)] := by
  cases out with
  | failure msg => rfl
  | success resp =>
      simp only [processModel]
      split <;> rfl

theorem runModels_cons (st : OrchState) (name : String) (out : Outcome)
    (rest : List (String × Outcome)) :
    runModels st ((name, out) :: rest) =
      if (processModel st name out).2 then (processModel st name out).1
      else runModels (processModel st name out).1 rest := rfl

theorem runModels_all_fail (models : List (String × Outcome)) :
    ∀ st : OrchState, (∀ p ∈ models, isFailure p.2 = true) →
    (runModels st models).best_result = st.best_result ∧
    (runModels st models).highest_confidence = st.highest_confidence ∧
    (runModels st models).errors =
      st.errors ++ models.map (fun p => failureMsg p.1 (outcomeErr p.2)) ∧
    (runModels st models).invoked = st.invoked ++ models := by
  induction models with
  | nil => intro st _; simp [runModels]
  | cons p rest ih =>
      intro st h
      obtain ⟨name, out⟩ := p
      have hout : isFailure out = true := h (name, out) (List.mem_cons_self _ _)
      cases out with
      | success resp => simp [isFailure] at hout
      | failure msg =>
          have hrest : ∀ q ∈ rest, isFailure q.2 = true :=
            fun q hq => h q (List.mem_cons_of_mem _ hq)
          rw [runModels_cons, processModel_failure]
          simp only [if_neg (by simp : ¬(false = true))]
          obtain ⟨h1, h2, h3, h4⟩ := ih _ hrest
          refine ⟨by simpa using h1, by simpa using h2, ?_, ?_⟩
          · rw [h3]; simp [outcomeErr, List.append_assoc]
          · rw [h4]; simp [List.append_assoc]

theorem runModels_invoked_take (models : List (String × Outcome)) :
    ∀ st : OrchState,
    ∃ k, k ≤ models.length ∧ (runModels st models).invoked = st.invoked ++ models.take k := by
  induction models with
  | nil => intro st; exact ⟨0, Nat.le_refl 0, by simp [runModels]⟩
  | cons p rest ih =>
      intro st
      obtain ⟨name, out⟩ := p
      rw [runModels_cons]
      by_cases hbrk : (processModel st name out).2 = true
      · rw [if_pos hbrk]
        exact ⟨1, by simp, by rw [processModel_invoked]; simp⟩
      · rw [if_neg hbrk]
        obtain ⟨k, hk, hkeq⟩ := ih (processModel st name out).1
        refine ⟨k + 1, by simpa using Nat.succ_le_succ hk, ?_⟩
        rw [hkeq, processModel_invoked]
        simp [List.append_assoc]

theorem processModel_break_of_high (st : OrchState) (name : String) (out : Outcome)
    (h : highSuccess (name, out) = true) : (processModel st name out).2 = true := by
  cases out with
  | failure msg => simp [highSuccess] at h
  | success resp =>
      simp only [highSuccess, decide_eq_true_eq] at h
      simp only [processModel, decide_eq_true_eq]
      exact h

theorem runModels_high_stops (models : List (String × Outcome)) :
    ∀ (st : OrchState) (i : ℕ) (hi : i < models.length),
      highSuccess (models.get ⟨i, hi⟩) = true →
      ((runModels st models).invoked).length ≤ st.invoked.length + i + 1 := by
  induction models with
  | nil => intro st i hi _; exact absurd hi (by simp)
  | cons p rest ih =>
      intro st i hi hhigh
      obtain ⟨name, out⟩ := p
      rw [runModels_cons]
      by_cases hbrk : (processModel st name out).2 = true
      · rw [if_pos hbrk, processModel_invoked]
        simp only [List.length_append, List.length_cons, List.length_nil]
        omega
      · rw [if_neg hbrk]
        cases i with
        | zero =>
            exact absurd (processModel_break_of_high st name out (by simpa using hhigh)) hbrk
        | succ j =>
            have hj : j < rest.length := by simpa using hi
            have hstep := ih (processModel st name out).1 j hj (by simpa using hhigh)
            rw [processModel_invoked] at hstep
            simp only [List.length_append, List.length_cons, List.length_nil] at hstep
            omega

theorem map_cellToHeader_str (l : List String) :
    l.map (fun c => cellToHeader (some (CellVal.str c))) = l := by
  induction l with
  | nil => rfl
  | cons c cs ih => simp [cellToHeader, ih]

/-! ## Claims C3, C5, C6, C7, C8, C9 -/

/-- C3 counterexample: two all-fail runs that differ only in the error
message produce identical return values (both `none`), even though their
internal error lists differ — so the accumulated error list is not part of
what `enhanced_gemini_extraction` returns to its caller. -/
theorem C3_counterexample :
    enhanced_gemini_extraction [("gemini-1.5-pro-latest", Outcome.failure "error A")] =
      enhanced_gemini_extraction [("gemini-1.5-pro-latest", Outcome.failure "error B")] ∧
    enhanced_gemini_extraction [("gemini-1.5-pro-latest", Outcome.failure "error A")] = none ∧
    (runModels initState [("gemini-1.5-pro-latest", Outcome.failure "error A")]).errors ≠
      (runModels initState [("gemini-1.5-pro-latest", Outcome.failure "error B")]).errors := by
  refine ⟨by decide, by decide, by decide⟩

/-- C3 (amended): when every backend in a non-empty candidate list fails,
the orchestrator returns no record, and it accumulates a non-empty error
list with exactly one message per failed backend, finishing with the
user-visible all-models-failed banner; the error list is surfaced through
the UI, not through the return value. -/
theorem C3_amended_all_fail (models : List (String × Outcome))
    (hall : ∀ p ∈ models, isFailure p.2 = true) (hne : models ≠ []) :
    enhanced_gemini_extraction models = none ∧
    (runModels initState models).errors =
      models.map (fun p => failureMsg p.1 (outcomeErr p.2)) ∧
    (runModels initState models).errors.length = models.length ∧
    (runModels initState models).errors ≠ [] ∧
    allModelsFailedBanner (runModels initState models) = true := by
  obtain ⟨h1, h2, h3, h4⟩ := runModels_all_fail models initState hall
  have hbest : (runModels initState models).best_result = none := by
    simpa [initState] using h1
  have herr : (runModels initState models).errors =
      models.map (fun p => failureMsg p.1 (outcomeErr p.2)) := by
    simpa [initState] using h3
  have hnenil : models.map (fun p => failureMsg p.1 (outcomeErr p.2)) ≠ [] := by
    simpa using hne
  refine ⟨hbest, herr, by rw [herr, List.length_map], by rw [herr]; exact hnenil, ?_⟩
  simp [allModelsFailedBanner, hbest, herr]
  intro hcon
  exact hne hcon

/-- C3 amended witness: the concrete all-fail run returns `none` and holds
one error per backend. -/
theorem C3_amended_all_fail_witness :
    enhanced_gemini_extraction modelsFailEx = none ∧
    (runModels initState modelsFailEx).errors.length = modelsFailEx.length :=
  ⟨(C3_amended_all_fail modelsFailEx (by decide) (by decide)).1,
   (C3_amended_all_fail modelsFailEx (by decide) (by decide)).2.2.1⟩

/-- C5: if the backend at position `i` of the candidate list is assigned a
success whose defaulted confidence strictly exceeds 0.98, the run invokes
only a prefix of the candidate list of length at most `i + 1` — no backend
after position `i` is ever invoked. -/
theorem C5_early_exit (models : List (String × Outcome)) (i : ℕ) (hi : i < models.length)
    (hhigh : highSuccess (models.get ⟨i, hi⟩) = true) :
    ∃ k, k ≤ i + 1 ∧ (runModels initState models).invoked = models.take k := by
  obtain ⟨k, hk, hkeq⟩ := runModels_invoked_take models initState
  have hinv : (runModels initState models).invoked = models.take k := by
    simpa [initState] using hkeq
  have hlen := runModels_high_stops models initState i hi hhigh
  rw [hinv] at hlen
  simp only [initState, List.length_nil, Nat.zero_add] at hlen
  have htk : (models.take k).length = k := by
    rw [List.length_take]; omega
  exact ⟨k, by omega, hinv⟩

/-- C5 witness: backend 0 of `modelsHighEx` scores 0.99, and the run
invokes only that single backend. -/
theorem C5_early_exit_witness :
    highSuccess (modelsHighEx.get ⟨0, by decide⟩) = true ∧
    ∃ k, k ≤ 0 + 1 ∧ (runModels initState modelsHighEx).invoked = modelsHighEx.take k :=
  ⟨by decide, C5_early_exit modelsHighEx 0 (by decide) (by decide)⟩

/-- C6: the confidence used for comparison defaults to 0.0 when
`confidence_score` is absent or JSON null, and a success whose defaulted
confidence exactly equals the current highest confidence never replaces
the earlier best result (the comparison is strict). -/
theorem C6_default_and_tie :
    defaultConf none = 0 ∧ defaultConf (some none) = 0 ∧
    ∀ (st : OrchState) (name : String) (resp : GeminiResponse),
      defaultConf resp.confidence_score = st.highest_confidence →
      (processModel st name (Outcome.success resp)).1.best_result = st.best_result ∧
      (processModel st name (Outcome.success resp)).1.highest_confidence =
        st.highest_confidence := by
  refine ⟨rfl, rfl, ?_⟩
  intro st name resp h
  simp [processModel, h]

/-- C6 witness: a response tying the current highest confidence (0.5)
leaves the best result and the highest confidence unchanged. -/
theorem C6_default_and_tie_witness :
    defaultConf respEx.confidence_score = stEx.highest_confidence ∧
    (processModel stEx "gemini-1.5-flash-latest" (Outcome.success respEx)).1.best_result =
      stEx.best_result :=
  ⟨by decide,
   (C6_default_and_tie.2.2 stEx "gemini-1.5-flash-latest" respEx (by decide)).1⟩

/-- C7: every run invokes a prefix of the candidate list — so backends run
in list order, the number of invocations is at most the list's length, and
no candidate entry is invoked more often than it occurs in the list (each
backend returns at most once). -/
theorem C7_invocations_in_order (models : List (String × Outcome)) :
    ∃ k, k ≤ models.length ∧
      (runModels initState models).invoked = models.take k ∧
      ((runModels initState models).invoked).length ≤ models.length ∧
      ∀ p : String × Outcome,
        ((runModels initState models).invoked).count p ≤ models.count p := by
  obtain ⟨k, hk, hkeq⟩ := runModels_invoked_take models initState
  have hinv : (runModels initState models).invoked = models.take k := by
    simpa [initState] using hkeq
  refine ⟨k, hk, hinv, ?_, ?_⟩
  · rw [hinv, List.length_take]; omega
  · intro p
    rw [hinv]
    exact (List.take_sublist k models).count_le p

/-- C8: serializing the store to the download blob and re-loading the blob
reproduces the store's column order and row count exactly. -/
theorem C8_export_roundtrip (store : DataFrame) :
    (parseDF (download_excel_file store)).columns = store.columns ∧
    (parseDF (download_excel_file store)).rows.length = store.rows.length := by
  constructor
  · show (store.columns.map (fun c => some (CellVal.str c))).map cellToHeader = store.columns
    rw [List.map_map]
    exact map_cellToHeader_str store.columns
  · rfl

/-- C9: if loading the store or writing it back raises, `save_to_excel`
returns `False` (the exception is caught, not propagated) and the
persisted store is left unchanged. -/
theorem C9_failure_aborts (store : DataFrame) (d : RecordDict) (loadOk writeOk : Bool)
    (h : loadOk = false ∨ writeOk = false) :
    (save_to_excel_run store d loadOk writeOk).1 = false ∧
    (save_to_excel_run store d loadOk writeOk).2 = store := by
  rcases h with h | h
  · simp [save_to_excel_run, h]
  · cases loadOk <;> simp [save_to_excel_run, h]

/-- C9 witness: a failing write on a concrete store returns `False` and
leaves the store as it was. -/
theorem C9_failure_aborts_witness :
    (save_to_excel_run ⟨EXCEL_COLUMNS, []⟩ fullNullDict true false).1 = false ∧
    (save_to_excel_run ⟨EXCEL_COLUMNS, []⟩ fullNullDict true false).2 = ⟨EXCEL_COLUMNS, []⟩ :=
  C9_failure_aborts ⟨EXCEL_COLUMNS, []⟩ fullNullDict true false (Or.inr rfl)

/-- C10 counterexample: a run whose only backend succeeds (its invocation
returns parseable JSON) but reports confidence -2.0 yields a null result:
`-2.0 or 0.0` keeps -2.0, and -2.0 does not exceed the initial highest
confidence -1.0, so the defaulted confidence is not "at least 0.0" and the
first success does not replace the initial null best result. -/
theorem C10_counterexample :
    (∃ p ∈ (runModels initState modelsNegEx).invoked, isFailure p.2 = false) ∧
    enhanced_gemini_extraction modelsNegEx = none := by
  decide

/-! ## The best-result invariant, claims C1 and C10 -/

@[simp] theorem successConfs_nil : successConfs [] = [] := rfl

@[simp] theorem successConfs_fail_singleton (name msg : String) :
    successConfs [(name, Outcome.failure msg)] = [] := rfl

@[simp] theorem successConfs_success_singleton (name : String) (resp : GeminiResponse) :
    successConfs [(name, Outcome.success resp)] =
      [(name, defaultConf resp.confidence_score)] := rfl

theorem processModel_success_lt (st : OrchState) (name : String) (resp : GeminiResponse)
    (h : st.highest_confidence < defaultConf resp.confidence_score) :
    (processModel st name (Outcome.success resp)).1 =
      { st with invoked := st.invoked ++ [(name, Outcome.success resp)],
                highest_confidence := defaultConf resp.confidence_score,
                best_result := some ⟨resp, name⟩ } := by
  simp [processModel, h]

theorem processModel_success_ge (st : OrchState) (name : String) (resp : GeminiResponse)
    (h : ¬ st.highest_confidence < defaultConf resp.confidence_score) :
    (processModel st name (Outcome.success resp)).1 =
      { st with invoked := st.invoked ++ [(name, Outcome.success resp)] } := by
  simp [processModel, h]

theorem stateInv_init : stateInv initState := by
  constructor
  · intro _
    exact ⟨rfl, by simp [initState]⟩
  · intro b hb
    simp [initState] at hb

theorem processModel_inv (st : OrchState) (name : String) (out : Outcome)
    (h : stateInv st) : stateInv (processModel st name out).1 := by
  cases out with
  | failure msg =>
      rw [processModel_failure]
      constructor
      · intro hnone
        obtain ⟨h1, h2⟩ := h.1 hnone
        refine ⟨h1, ?_⟩
        intro y hy
        rw [successConfs_append] at hy
        simp only [successConfs_fail_singleton, List.append_nil] at hy
        exact h2 y hy
      · intro b hb
        obtain ⟨g1, g2, pre, x, post, heq, hx1, hx2, hpre⟩ := h.2 b hb
        refine ⟨g1, ?_, pre, x, post, ?_, hx1, hx2, hpre⟩
        · intro y hy
          rw [successConfs_append] at hy
          simp only [successConfs_fail_singleton, List.append_nil] at hy
          exact g2 y hy
        · rw [successConfs_append]
          simp only [successConfs_fail_singleton, List.append_nil]
          exact heq
  | success resp =>
      by_cases hlt : st.highest_confidence < defaultConf resp.confidence_score
      · rw [processModel_success_lt st name resp hlt]
        constructor
        · intro hnone
          exact absurd hnone (by simp)
        · intro b hb
          have hbe : b = ⟨resp, name⟩ := by
            have := hb
            simp only [Option.some.injEq] at this
            exact this.symm
          subst hbe
          refine ⟨rfl, ?_, successConfs st.invoked,
            (name, defaultConf resp.confidence_score), [], ?_, rfl, rfl, ?_⟩
          · intro y hy
            rw [successConfs_append] at hy
            simp only [successConfs_success_singleton] at hy
            rcases List.mem_append.mp hy with hy | hy
            · rcases hob : st.best_result with _ | b0
              · obtain ⟨h1, h2⟩ := h.1 hob
                have := h2 y hy
                rw [h1] at hlt
                exact le_of_lt (lt_of_le_of_lt this hlt)
              · obtain ⟨g1, g2, _⟩ := h.2 b0 hob
                exact le_of_lt (lt_of_le_of_lt (g2 y hy) hlt)
            · simp only [List.mem_singleton] at hy
              subst hy
              exact le_refl _
          · rw [successConfs_append]
            simp only [successConfs_success_singleton]
          · intro y hy
            rcases hob : st.best_result with _ | b0
            · obtain ⟨h1, h2⟩ := h.1 hob
              have := h2 y hy
              rw [h1] at hlt
              exact lt_of_le_of_lt this hlt
            · obtain ⟨g1, g2, _⟩ := h.2 b0 hob
              exact lt_of_le_of_lt (g2 y hy) hlt
      · rw [processModel_success_ge st name resp hlt]
        have hle : defaultConf resp.confidence_score ≤ st.highest_confidence :=
          le_of_not_lt hlt
        constructor
        · intro hnone
          obtain ⟨h1, h2⟩ := h.1 hnone
          refine ⟨h1, ?_⟩
          intro y hy
          rw [successConfs_append] at hy
          simp only [successConfs_success_singleton] at hy
          rcases List.mem_append.mp hy with hy | hy
          · exact h2 y hy
          · simp only [List.mem_singleton] at hy
            subst hy
            rw [h1] at hle
            exact hle
        · intro b hb
          obtain ⟨g1, g2, pre, x, post, heq, hx1, hx2, hpre⟩ := h.2 b hb
          refine ⟨g1, ?_, pre, x,
            post ++ [(name, defaultConf resp.confidence_score)], ?_, hx1, hx2, hpre⟩
          · intro y hy
            rw [successConfs_append] at hy
            simp only [successConfs_success_singleton] at hy
            rcases List.mem_append.mp hy with hy | hy
            · exact g2 y hy
            · simp only [List.mem_singleton] at hy
              subst hy
              exact hle
          · rw [successConfs_append]
            simp only [successConfs_success_singleton]
            rw [heq]
            simp [List.append_assoc]

theorem runModels_inv (models : List (String × Outcome)) :
    ∀ st : OrchState, stateInv st → stateInv (runModels st models) := by
  induction models with
  | nil => intro st h; exact h
  | cons p rest ih =>
      intro st h
      obtain ⟨name, out⟩ := p
      rw [runModels_cons]
      by_cases hbrk : (processModel st name out).2 = true
      · rw [if_pos hbrk]; exact processModel_inv st name out h
      · rw [if_neg hbrk]; exact ih _ (processModel_inv st name out h)

theorem mem_successConfs_of_invoked (l : List (String × Outcome)) (p : String × Outcome)
    (resp : GeminiResponse) (hp : p ∈ l) (h2 : p.2 = Outcome.success resp) :
    (p.1, defaultConf resp.confidence_score) ∈ successConfs l :=
  List.mem_filterMap.mpr ⟨p, hp, by rw [h2]⟩

/-- C1: whenever the orchestrator returns a record, its `model_used` is the
identifier at the first-seen maximum of the invoked successes' defaulted
confidences: some invoked success carries that identifier, every invoked
success's confidence is at most its confidence, and every invoked success
strictly before it scored strictly less (so an equal later confidence
never displaces it). -/
theorem C1_model_used_first_seen_max (models : List (String × Outcome)) (b : BestResult)
    (h : enhanced_gemini_extraction models = some b) :
    firstSeenMax (invokedSuccs models) b.model_used := by
  have hinv := runModels_inv models initState stateInv_init
  obtain ⟨g1, g2, pre, x, post, heq, hx1, hx2, hpre⟩ := hinv.2 b h
  refine ⟨pre, x, post, heq, hx1, ?_, ?_⟩
  · intro y hy
    rw [hx2]
    exact g2 y hy
  · intro y hy
    rw [hx2]
    exact hpre y hy

/-- C1 witness: in the spec §8 example run (0.6 then 0.9), the returned
record's `model_used` is the flash backend, the first-seen maximum. -/
theorem C1_model_used_first_seen_max_witness :
    enhanced_gemini_extraction modelsEx = some bestEx ∧
    firstSeenMax (invokedSuccs modelsEx) bestEx.model_used :=
  ⟨by decide, C1_model_used_first_seen_max modelsEx bestEx (by decide)⟩

/-- C10 (amended): if some invoked backend succeeds with a defaulted
confidence of at least 0.0 — which holds whenever `confidence_score` is
absent, null, or within the documented 0.0–1.0 range — the orchestrator's
returned result is non-null, because the initial highest confidence is
-1.0 and the comparison is strict. -/
theorem C10_amended_success_nonneg (models : List (String × Outcome))
    (h : ∃ p ∈ (runModels initState models).invoked, nonnegSuccess p = true) :
    ∃ b, enhanced_gemini_extraction models = some b := by
  obtain ⟨p, hp, hnn⟩ := h
  cases hb : (runModels initState models).best_result with
  | some b => exact ⟨b, hb⟩
  | none =>
      have hinv := runModels_inv models initState stateInv_init
      obtain ⟨h1, h2⟩ := hinv.1 hb
      cases hp2 : p.2 with
      | failure m =>
          simp [nonnegSuccess, hp2] at hnn
      | success resp =>
          simp only [nonnegSuccess, hp2, decide_eq_true_eq] at hnn
          have hm := mem_successConfs_of_invoked _ p resp hp hp2
          have hle := h2 _ hm
          simp only at hle
          linarith

/-- C10 amended witness: one backend fails, the next succeeds with
confidence 0.7 ≥ 0, and the run returns a record. -/
theorem C10_amended_success_nonneg_witness :
    (∃ p ∈ (runModels initState modelsOkEx).invoked, nonnegSuccess p = true) ∧
    ∃ b, enhanced_gemini_extraction modelsOkEx = some b :=
  ⟨by decide, C10_amended_success_nonneg modelsOkEx (by decide)⟩

/-! ## Store lemmas, claims C2 and C4 -/

theorem EXCEL_COLUMNS_nodup : EXCEL_COLUMNS.Nodup := by decide

theorem dictLookup_none_of_no_key (d : RecordDict) (c : String)
    (h : dictHasKey d c = false) : dictLookup d c = none := by
  induction d with
  | nil => rfl
  | cons p rest ih =>
      obtain ⟨k, v⟩ := p
      simp only [dictHasKey, List.map_cons, List.contains_cons,
        Bool.or_eq_false_iff] at h
      have hck : ¬ c = k := by simpa using h.1
      show (if c = k then v else dictLookup rest c) = none
      rw [if_neg hck]
      exact ih (by simpa [dictHasKey] using h.2)

theorem getCell_map_dict (d : RecordDict) (c : String) :
    getCell (d.map Prod.fst) (d.map Prod.snd) c = dictLookup d c := by
  induction d with
  | nil => rfl
  | cons p rest ih =>
      obtain ⟨k, v⟩ := p
      show (if c = k then v else getCell (rest.map Prod.fst) (rest.map Prod.snd) c) =
        (if c = k then v else dictLookup rest c)
      by_cases hck : c = k
      · rw [if_pos hck, if_pos hck]
      · rw [if_neg hck, if_neg hck]
        exact ih

theorem getCell_replicate_none (l : List String) (c : String) :
    getCell l (List.replicate l.length none) c = none := by
  induction l with
  | nil => rfl
  | cons a as ih =>
      show (if c = a then none else getCell as (List.replicate as.length none) c) = none
      rw [ih]
      split <;> rfl

theorem getCell_append_pad (cols : List String) :
    ∀ (row : List (Option CellVal)) (extra : List String) (c : String),
      cols.length = row.length →
      getCell (cols ++ extra) (row ++ List.replicate extra.length none) c =
        getCell cols row c := by
  induction cols with
  | nil =>
      intro row extra c hlen
      have hrow : row = [] := List.length_eq_zero.mp hlen.symm
      subst hrow
      exact getCell_replicate_none extra c
  | cons a as ih =>
      intro row extra c hlen
      cases row with
      | nil => simp at hlen
      | cons v vs =>
          show (if c = a then v
              else getCell (as ++ extra) (vs ++ List.replicate extra.length none) c) =
            (if c = a then v else getCell as vs c)
          by_cases hca : c = a
          · rw [if_pos hca, if_pos hca]
          · rw [if_neg hca, if_neg hca]
            exact ih vs extra c (by simpa using hlen)

theorem addMissing_shape (cols : List String) :
    ∀ df : DataFrame, ∃ extra : List String,
      addMissingColumns df cols =
        ⟨df.columns ++ extra,
         df.rows.map (fun r => r ++ List.replicate extra.length none)⟩ := by
  induction cols with
  | nil =>
      intro df
      refine ⟨[], ?_⟩
      simp [addMissingColumns]
  | cons c cs ih =>
      intro df
      by_cases hc : c ∈ df.columns
      · have ha : addColumn df c = df := by simp [addColumn, hc]
        rw [show addMissingColumns df (c :: cs) = addMissingColumns (addColumn df c) cs
          from rfl, ha]
        exact ih df
      · have ha : addColumn df c =
            ⟨df.columns ++ [c], df.rows.map (fun r => r ++ [none])⟩ := by
          simp [addColumn, hc]
        rw [show addMissingColumns df (c :: cs) = addMissingColumns (addColumn df c) cs
          from rfl, ha]
        obtain ⟨e2, he2⟩ := ih ⟨df.columns ++ [c], df.rows.map (fun r => r ++ [none])⟩
        refine ⟨c :: e2, ?_⟩
        rw [he2]
        congr 1
        · simp
        · rw [List.map_map]
          apply List.map_congr_left
          intro r _
          show (r ++ [none]) ++ List.replicate e2.length none =
            r ++ List.replicate (c :: e2).length none
          rw [List.append_assoc]
          rfl

theorem select_addMissing_dict (d : RecordDict) (cols : List String) :
    selectColumns (addMissingColumns (dataFrameOfDict d) cols) cols =
      ⟨cols, [cols.map (dictLookup d)]⟩ := by
  obtain ⟨extra, hshape⟩ := addMissing_shape cols (dataFrameOfDict d)
  rw [hshape]
  have hfun : ∀ c ∈ cols,
      getCell (d.map Prod.fst ++ extra)
        (d.map Prod.snd ++ List.replicate extra.length none) c = dictLookup d c := by
    intro c _
    rw [getCell_append_pad (d.map Prod.fst) (d.map Prod.snd) extra c (by simp)]
    exact getCell_map_dict d c
  show (⟨cols, [cols.map (getCell (d.map Prod.fst ++ extra)
      (d.map Prod.snd ++ List.replicate extra.length none))]⟩ : DataFrame) =
    ⟨cols, [cols.map (dictLookup d)]⟩
  rw [List.map_congr_left hfun]

theorem contains_of_mem (l : List String) (a : String) (h : a ∈ l) :
    l.contains a = true := by
  induction l with
  | nil => cases h
  | cons b bs ih =>
      rw [List.contains_cons]
      rcases List.mem_cons.mp h with h | h
      · subst h
        simp
      · rw [ih h]
        simp

theorem filter_contained_nil (l : List String) :
    ∀ m : List String, (∀ c ∈ l, m.contains c = true) →
      l.filter (fun c => !(m.contains c)) = [] := by
  induction l with
  | nil => intro m _; rfl
  | cons a as ih =>
      intro m h
      rw [List.filter_cons]
      rw [h a (List.mem_cons_self a as)]
      simp only [Bool.not_true, Bool.false_eq_true, if_false]
      exact ih m (fun c hc => h c (List.mem_cons_of_mem a hc))

theorem map_getCell_self (cols : List String) :
    ∀ row : List (Option CellVal), cols.Nodup → row.length = cols.length →
      cols.map (getCell cols row) = row := by
  induction cols with
  | nil =>
      intro row _ hlen
      have : row = [] := List.length_eq_zero.mp hlen
      subst this
      rfl
  | cons a as ih =>
      intro row hnd hlen
      cases row with
      | nil => simp at hlen
      | cons v vs =>
          have hnotmem : a ∉ as := (List.nodup_cons.mp hnd).1
          have hndas : as.Nodup := (List.nodup_cons.mp hnd).2
          show (if a = a then v else getCell as vs a) ::
              as.map (getCell (a :: as) (v :: vs)) = v :: vs
          rw [if_pos rfl]
          congr 1
          have hmap : as.map (getCell (a :: as) (v :: vs)) = as.map (getCell as vs) := by
            apply List.map_congr_left
            intro x hx
            show (if x = a then v else getCell as vs x) = getCell as vs x
            rw [if_neg]
            intro hxa
            exact hnotmem (hxa ▸ hx)
          rw [hmap]
          exact ih vs hndas (by simpa using hlen)

theorem concat_same_columns (a : DataFrame) (rowsB : List (List (Option CellVal)))
    (hnd : a.columns.Nodup)
    (hra : ∀ r ∈ a.rows, r.length = a.columns.length)
    (hrb : ∀ r ∈ rowsB, r.length = a.columns.length) :
    concatDF a ⟨a.columns, rowsB⟩ = ⟨a.columns, a.rows ++ rowsB⟩ := by
  have hfil : a.columns.filter (fun c => !(a.columns.contains c)) = [] :=
    filter_contained_nil _ _ (fun c hc => contains_of_mem _ _ hc)
  have halign : ∀ r : List (Option CellVal), r.length = a.columns.length →
      alignRow a.columns r a.columns = r :=
    fun r hr => map_getCell_self a.columns r hnd hr
  unfold concatDF
  simp only [hfil, List.append_nil]
  congr 1
  have h1 : a.rows.map (fun r => alignRow a.columns r a.columns) = a.rows := by
    rw [show a.rows = a.rows.map id by rw [List.map_id]]
    rw [List.map_map]
    apply List.map_congr_left
    intro r hr
    show alignRow a.columns (id r) a.columns = id r
    exact halign r (hra r (by simpa using hr))
  have h2 : rowsB.map (fun r => alignRow a.columns r a.columns) = rowsB := by
    rw [show rowsB = rowsB.map id by rw [List.map_id]]
    rw [List.map_map]
    apply List.map_congr_left
    intro r hr
    show alignRow a.columns (id r) a.columns = id r
    exact halign r (hrb r (by simpa using hr))
  rw [h1, h2]

theorem save_to_excel_spec (store : DataFrame) (d : RecordDict)
    (hc : store.columns = EXCEL_COLUMNS)
    (hr : ∀ r ∈ store.rows, r.length = EXCEL_COLUMNS.length) :
    save_to_excel store d =
      ⟨EXCEL_COLUMNS, store.rows ++ [EXCEL_COLUMNS.map (dictLookup d)]⟩ := by
  show concatDF store
      (selectColumns (addMissingColumns (dataFrameOfDict d) EXCEL_COLUMNS) EXCEL_COLUMNS) =
    ⟨EXCEL_COLUMNS, store.rows ++ [EXCEL_COLUMNS.map (dictLookup d)]⟩
  rw [select_addMissing_dict]
  rw [show (⟨EXCEL_COLUMNS, [EXCEL_COLUMNS.map (dictLookup d)]⟩ : DataFrame) =
      ⟨store.columns, [EXCEL_COLUMNS.map (dictLookup d)]⟩ by rw [hc]]
  rw [concat_same_columns store [EXCEL_COLUMNS.map (dictLookup d)]
      (by rw [hc]; exact EXCEL_COLUMNS_nodup)
      (by intro r hrr; rw [hc]; exact hr r hrr)
      (by intro r hrr
          simp only [List.mem_singleton] at hrr
          subst hrr
          simp [hc])]
  rw [hc]

/-- C2: appending a record missing some schema fields (and possibly holding
extra keys) to a well-formed store yields exactly the schema columns in
schema order, with the new row appended after all previously stored rows;
the new row is the schema-ordered list of the dict's values, so missing or
null fields are stored as null and extra keys are dropped. -/
theorem C2_append_schema_row (store : DataFrame) (d : RecordDict)
    (hc : store.columns = EXCEL_COLUMNS)
    (hr : ∀ r ∈ store.rows, r.length = EXCEL_COLUMNS.length) :
    (save_to_excel store d).columns = EXCEL_COLUMNS ∧
    (save_to_excel store d).rows = store.rows ++ [EXCEL_COLUMNS.map (dictLookup d)] ∧
    (EXCEL_COLUMNS.map (dictLookup d)).length = EXCEL_COLUMNS.length ∧
    ∀ c : String, dictHasKey d c = false → dictLookup d c = none := by
  rw [save_to_excel_spec store d hc hr]
  exact ⟨rfl, rfl, List.length_map _ _,
    fun c hnc => dictLookup_none_of_no_key d c hnc⟩

/-- C2 witness: appending `dEx` (one field set, one extra key, one null
field) to the empty store produces the schema columns and one
schema-ordered row. -/
theorem C2_append_schema_row_witness :
    (save_to_excel ⟨EXCEL_COLUMNS, []⟩ dEx).columns = EXCEL_COLUMNS ∧
    (save_to_excel ⟨EXCEL_COLUMNS, []⟩ dEx).rows =
      [] ++ [EXCEL_COLUMNS.map (dictLookup dEx)] :=
  ⟨(C2_append_schema_row ⟨EXCEL_COLUMNS, []⟩ dEx rfl (by simp)).1,
   (C2_append_schema_row ⟨EXCEL_COLUMNS, []⟩ dEx rfl (by simp)).2.1⟩

/-- C4 counterexample: the single-record Excel download builds
`pd.DataFrame([edited_data])` without reindexing, so for the edit
surface's working copy of a fully populated record the blob's column order
is the edit-surface insertion order (starting with `name`), not the Record
Schema's field ordering (starting with `document_title`). -/
theorem C4_counterexample :
    (dataFrameOfDict (edited_data_temp fullNullDict (fun _ => ""))).columns ≠
      EXCEL_COLUMNS := by
  decide

/-- C4 (amended): the persisted file after an append and the re-loaded
full-store export blob carry the schema's column order (for a store whose
file has the schema columns), but the single-record export blob carries
the working copy's key insertion order — the editable fields present, in
edit-surface grouping order, then `document_title` and `society_name` —
which differs from the schema ordering. -/
theorem C4_amended_column_orders :
    (∀ (store : DataFrame) (d : RecordDict),
        store.columns = EXCEL_COLUMNS →
        (∀ r ∈ store.rows, r.length = EXCEL_COLUMNS.length) →
        (save_to_excel store d).columns = EXCEL_COLUMNS) ∧
    (∀ store : DataFrame, store.columns = EXCEL_COLUMNS →
        (parseDF (download_excel_file store)).columns = EXCEL_COLUMNS) ∧
    (∀ (d : RecordDict) (wv : String → String),
        (dataFrameOfDict (edited_data_temp d wv)).columns =
          editableFields.filter (fun f => dictHasKey d f) ++
            ["document_title", "society_name"]) := by
  refine ⟨?_, ?_, ?_⟩
  · intro store d hc hr
    rw [save_to_excel_spec store d hc hr]
  · intro store hc
    show (store.columns.map (fun c => some (CellVal.str c))).map cellToHeader =
      EXCEL_COLUMNS
    rw [List.map_map,
      show cellToHeader ∘ (fun c => some (CellVal.str c)) =
        fun c => cellToHeader (some (CellVal.str c)) from rfl,
      map_cellToHeader_str, hc]
  · intro d wv
    show ((editableFields.filter (fun f => dictHasKey d f)).map
          (fun f => (f, some (CellVal.str (wv f)))) ++
        [("document_title", dictLookup d "document_title"),
         ("society_name", dictLookup d "society_name")]).map Prod.fst = _
    rw [List.map_append, List.map_map]
    rw [show (Prod.fst ∘ fun f => (f, some (CellVal.str (wv f)))) = id from rfl,
      List.map_id]
    rfl

/-- C4 amended witness: concrete store and record instances for each of
the three artifacts. -/
theorem C4_amended_column_orders_witness :
    (save_to_excel ⟨EXCEL_COLUMNS, []⟩ fullNullDict).columns = EXCEL_COLUMNS ∧
    (parseDF (download_excel_file ⟨EXCEL_COLUMNS, []⟩)).columns = EXCEL_COLUMNS ∧
    (dataFrameOfDict (edited_data_temp fullNullDict (fun _ => ""))).columns =
      editableFields.filter (fun f => dictHasKey fullNullDict f) ++
        ["document_title", "society_name"] :=
  ⟨C4_amended_column_orders.1 ⟨EXCEL_COLUMNS, []⟩ fullNullDict rfl (by simp),
   C4_amended_column_orders.2.1 ⟨EXCEL_COLUMNS, []⟩ rfl,
   C4_amended_column_orders.2.2 fullNullDict (fun _ => "")⟩
